import Mathlib

/-!
Verification of the coefficient-buffer controller of the decoder
(the jdcoefct portion of `src/trunk/turbojpeg-jni.c`): the single-pass
decode path (`decompress_onepass`), the multi-pass input consumer
(`consume_data`), the multi-pass output producer (`decompress_data`),
the smoothing estimator (`decompress_smooth_data`, `smoothing_ok`) and
the row sequencer (`start_iMCU_row`), as a shallow embedding.

Machine integers of the source are modelled as `Nat`/`Int`: the
quantities involved (row counters, 16-bit quantizer values, coefficient
estimates) stay far below any overflow boundary of the source's 32-bit
arithmetic, so no wrap-around modelling is required.  The entropy
decoder, an external collaborator, is modelled as an oracle: a
suspension schedule `sched : List Bool` consumed one token per
`decode_mcu` call (a `true` token makes the call report insufficient
input; the empty schedule never suspends), and
`blocks : Nat → Nat → Block` giving the blocks of the k-th
successfully decoded MCU.  The inverse transform, also external, is
kept abstract: the controller's output is the list of IDCT write events
(component, row-group, sample offsets, coefficient block) it issues;
two runs that issue equal event lists produce bit-identical pixels for
any inverse-transform routine.
-/

namespace JDCoef

/-- Return statuses of the controller entry points
(JPEG_ROW_COMPLETED / JPEG_SCAN_COMPLETED / JPEG_SUSPENDED). -/
inductive Status where
  | rowCompleted
  | scanCompleted
  | suspended
deriving DecidableEq

/-- One DCT block: 64 coefficients in natural order (JBLOCK). -/
def Block : Type := Fin 64 → Int

instance : Inhabited Block := ⟨fun _ => 0⟩

/-- Per-component, per-scan information (jpeg_component_info, restricted
to the fields the controller reads). -/
structure CompInfo where
  component_index : Nat
  component_needed : Bool
  v_samp_factor : Nat
  h_samp_factor : Nat
  height_in_blocks : Nat
  width_in_blocks : Nat
  MCU_width : Nat
  MCU_height : Nat
  MCU_blocks : Nat
  MCU_sample_width : Nat
  last_col_width : Nat
  DCT_scaled_size : Nat
  quant_table : Option (Fin 64 → Nat)
deriving Inhabited

/-- Modelled from the spec: the per-scan input-side field
`last_row_height` is established by the scan-setup code of the input
controller, which is not part of the sources here; the spec states the
final row-group's MCU-row count "equals `height_in_blocks mod
v_samp_factor` (or the factor itself if that remainder is 0)", which is
also the formula the output side of `decompress_data` recomputes
inline. -/
def last_row_height (c : CompInfo) : Nat :=
  if c.height_in_blocks % c.v_samp_factor = 0 then c.v_samp_factor
  else c.height_in_blocks % c.v_samp_factor

/-- Per-scan geometry (immutable during one scan): fields of
j_decompress_struct that the controller only reads. -/
structure Geom where
  comps_in_scan : Nat
  cur_comp : List CompInfo
  comp_info : List CompInfo
  MCUs_per_row : Nat
  total_iMCU_rows : Nat
  blocks_in_MCU : Nat
  Ss : Nat
deriving Inhabited

/-- The mutable controller state: the progress cursors of
j_decompress_struct and my_coef_controller, the coefficient store
(virtual block arrays, addressed component/block-row/block-column), and
the entropy oracle's success counter.  `input_pass_finished` models the
upstream effect of the `finish_input_pass` call. -/
structure DecState where
  input_iMCU_row : Nat
  output_iMCU_row : Nat
  input_scan_number : Nat
  output_scan_number : Nat
  MCU_ctr : Nat
  MCU_vert_offset : Nat
  MCU_rows_per_iMCU_row : Nat
  eoi_reached : Bool
  input_pass_finished : Bool
  entropy_k : Nat
  store : Nat → Nat → Nat → Block

/-- start_iMCU_row: reset the within-iMCU-row counters and recompute the
number of MCU rows in the current (input-side) iMCU row. -/
def start_iMCU_row (g : Geom) (st : DecState) : DecState :=
  let rows :=
    if 1 < g.comps_in_scan then 1
    else
      if st.input_iMCU_row < g.total_iMCU_rows - 1 then
        (g.cur_comp.headI).v_samp_factor
      else last_row_height g.cur_comp.headI
  { st with MCU_rows_per_iMCU_row := rows, MCU_ctr := 0, MCU_vert_offset := 0 }

/-- start_input_pass: reset the input cursor to row-group 0. -/
def start_input_pass (g : Geom) (st : DecState) : DecState :=
  start_iMCU_row g { st with input_iMCU_row := 0 }

/-- C3: the row-group height set by `start_iMCU_row` is 1 for an
interleaved scan; for a single-component scan it is the component's
vertical sampling factor except on the last row-group, where it is
`height_in_blocks mod v_samp_factor` (or the full factor when that
remainder is 0). -/
theorem start_iMCU_row_height (g : Geom) (st : DecState) :
    (1 < g.comps_in_scan →
      (start_iMCU_row g st).MCU_rows_per_iMCU_row = 1) ∧
    (g.comps_in_scan = 1 →
      st.input_iMCU_row < g.total_iMCU_rows - 1 →
      (start_iMCU_row g st).MCU_rows_per_iMCU_row =
        (g.cur_comp.headI).v_samp_factor) ∧
    (g.comps_in_scan = 1 →
      st.input_iMCU_row = g.total_iMCU_rows - 1 →
      (start_iMCU_row g st).MCU_rows_per_iMCU_row =
        (if (g.cur_comp.headI).height_in_blocks %
              (g.cur_comp.headI).v_samp_factor = 0 then
           (g.cur_comp.headI).v_samp_factor
         else (g.cur_comp.headI).height_in_blocks %
              (g.cur_comp.headI).v_samp_factor)) := by
  refine ⟨fun h1 => ?_, fun h1 h2 => ?_, fun h1 h2 => ?_⟩
  · simp [start_iMCU_row, h1]
  · simp [start_iMCU_row, h1, h2]
  · simp [start_iMCU_row, h1, h2, last_row_height]

/-- Concrete instance of `start_iMCU_row_height`: a 3-row single
component scan with v_samp_factor 2 and 5 block rows, evaluated on the
last row-group. -/
def c3Geom : Geom :=
  { comps_in_scan := 1
    cur_comp := [{ component_index := 0, component_needed := true,
                   v_samp_factor := 2, h_samp_factor := 1,
                   height_in_blocks := 5, width_in_blocks := 4,
                   MCU_width := 1, MCU_height := 1, MCU_blocks := 1,
                   MCU_sample_width := 8, last_col_width := 1,
                   DCT_scaled_size := 8, quant_table := none }]
    comp_info := []
    MCUs_per_row := 4
    total_iMCU_rows := 3
    blocks_in_MCU := 1
    Ss := 0 }

/-- A default state for concrete instantiations. -/
def st0 : DecState :=
  { input_iMCU_row := 0, output_iMCU_row := 0,
    input_scan_number := 1, output_scan_number := 1,
    MCU_ctr := 0, MCU_vert_offset := 0, MCU_rows_per_iMCU_row := 1,
    eoi_reached := false, input_pass_finished := false,
    entropy_k := 0, store := fun _ _ _ => (fun _ => 0) }

theorem start_iMCU_row_height_witness :
    (start_iMCU_row c3Geom
        { st0 with input_iMCU_row := 2 }).MCU_rows_per_iMCU_row =
      (if (c3Geom.cur_comp.headI).height_in_blocks %
            (c3Geom.cur_comp.headI).v_samp_factor = 0 then
         (c3Geom.cur_comp.headI).v_samp_factor
       else (c3Geom.cur_comp.headI).height_in_blocks %
            (c3Geom.cur_comp.headI).v_samp_factor) :=
  (start_iMCU_row_height c3Geom
      { st0 with input_iMCU_row := 2 }).2.2 (by decide) (by decide)

/-! ### Smoothing eligibility (`smoothing_ok`) -/

/-- Natural-order positions of the first 5 zigzag-order AC
coefficients (Q01_POS, Q10_POS, Q20_POS, Q11_POS, Q02_POS). -/
def Q01_POS : Fin 64 := 1
def Q10_POS : Fin 64 := 8
def Q20_POS : Fin 64 := 16
def Q11_POS : Fin 64 := 9
def Q02_POS : Fin 64 := 2

/-- Per-component data read by `smoothing_ok`: the component's
quantization table and its row of cinfo->coef_bits (entries 0..5 are
the ones consulted). -/
structure SmComp where
  quant_table : Option (Fin 64 → Nat)
  coef_bits : Fin 6 → Int
deriving Inhabited

/-- The decoder fields consulted by `smoothing_ok`:
cinfo->progressive_mode, whether cinfo->coef_bits is non-NULL, and the
per-component data. -/
structure SmState where
  progressive_mode : Bool
  coef_bits_present : Bool
  comps : List SmComp
deriving Inhabited

/-- The component loop of `smoothing_ok`: for each component, return
FALSE if its quantization table is absent, if the DC or any of the
first 5 AC quantizer values is zero, or if the DC coefficient is not
yet partly known (coef_bits[0] < 0); otherwise accumulate
`smoothing_useful` from the AC coef_bits entries and continue. -/
def smoothing_ok_loop : List SmComp → Bool → Bool
  | [], smoothing_useful => smoothing_useful
  | c :: rest, smoothing_useful =>
    match c.quant_table with
    | none => false
    | some qtable =>
      if qtable 0 = 0 ∨ qtable Q01_POS = 0 ∨ qtable Q10_POS = 0 ∨
         qtable Q20_POS = 0 ∨ qtable Q11_POS = 0 ∨ qtable Q02_POS = 0 then
        false
      else if c.coef_bits 0 < 0 then false
      else
        smoothing_ok_loop rest
          (smoothing_useful || decide (c.coef_bits 1 ≠ 0) ||
           decide (c.coef_bits 2 ≠ 0) || decide (c.coef_bits 3 ≠ 0) ||
           decide (c.coef_bits 4 ≠ 0) || decide (c.coef_bits 5 ≠ 0))

/-- smoothing_ok: block smoothing is applicable only in progressive
mode with coefficient-precision information present, and only if every
component passes the loop's checks and some AC coefficient is still
inexact. -/
def smoothing_ok (st : SmState) : Bool :=
  if ¬ st.progressive_mode ∨ ¬ st.coef_bits_present then false
  else smoothing_ok_loop st.comps false

theorem smoothing_ok_loop_zero_quant (c : SmComp) (q : Fin 64 → Nat)
    (hq : c.quant_table = some q)
    (hz : q 0 = 0 ∨ q Q01_POS = 0 ∨ q Q10_POS = 0 ∨
          q Q20_POS = 0 ∨ q Q11_POS = 0 ∨ q Q02_POS = 0) :
    ∀ comps : List SmComp, ∀ useful : Bool, c ∈ comps →
      smoothing_ok_loop comps useful = false := by
  intro comps
  induction comps with
  | nil => intro useful h; cases h
  | cons hd tl ih =>
    intro useful hmem
    rcases List.mem_cons.mp hmem with hhd | htl
    · subst hhd
      simp only [smoothing_ok_loop, hq]
      rw [if_pos hz]
    · show smoothing_ok_loop (hd :: tl) useful = false
      match hqt : hd.quant_table with
      | none => simp only [smoothing_ok_loop, hqt]
      | some qtable =>
        simp only [smoothing_ok_loop, hqt]
        by_cases hz2 : qtable 0 = 0 ∨ qtable Q01_POS = 0 ∨
            qtable Q10_POS = 0 ∨ qtable Q20_POS = 0 ∨
            qtable Q11_POS = 0 ∨ qtable Q02_POS = 0
        · rw [if_pos hz2]
        · rw [if_neg hz2]
          by_cases hdc : hd.coef_bits 0 < 0
          · rw [if_pos hdc]
          · rw [if_neg hdc]
            exact ih _ htl

/-- C4: `smoothing_ok` returns false whenever any component's
quantization table has value 0 at the DC position or at any of the
first 5 AC zigzag positions, regardless of every other condition, so
the smoothing divisions are never evaluated with a zero quantizer. -/
theorem smoothing_ok_false_of_zero_quant (st : SmState) (c : SmComp)
    (q : Fin 64 → Nat) (hmem : c ∈ st.comps)
    (hq : c.quant_table = some q)
    (hz : q 0 = 0 ∨ q Q01_POS = 0 ∨ q Q10_POS = 0 ∨
          q Q20_POS = 0 ∨ q Q11_POS = 0 ∨ q Q02_POS = 0) :
    smoothing_ok st = false := by
  unfold smoothing_ok
  by_cases hp : ¬ st.progressive_mode ∨ ¬ st.coef_bits_present
  · rw [if_pos hp]
  · rw [if_neg hp]
    exact smoothing_ok_loop_zero_quant c q hq hz st.comps false hmem

/-- Concrete instance: a progressive state whose single component has a
zero DC quantizer but otherwise satisfies every smoothing condition. -/
def c4Comp : SmComp :=
  { quant_table := some (fun i => if i = Q10_POS then 0 else 3)
    coef_bits := fun i => if i = 0 then 0 else 1 }

theorem smoothing_ok_false_of_zero_quant_witness :
    smoothing_ok
      { progressive_mode := true, coef_bits_present := true,
        comps := [c4Comp] } = false :=
  smoothing_ok_false_of_zero_quant
    { progressive_mode := true, coef_bits_present := true,
      comps := [c4Comp] }
    c4Comp (fun i => if i = Q10_POS then 0 else 3)
    (List.mem_singleton.mpr rfl) rfl
    (Or.inr (Or.inr (Or.inl (by decide))))

/-! ### The per-block smoothing estimate (`decompress_smooth_data`,
per-coefficient part) -/

/-- The estimate computed for one AC position by
`decompress_smooth_data`: `Al` is the latched coef_bits entry, `num`
the weighted DC difference already multiplied by Q00, and `q` the
target position's quantizer.  Mirrors the source branch on the sign of
`num`, the truncating divisions `((q<<7) ± num) / (q<<8)`, and the
clamp to `(1<<Al) - 1` guarded by `Al > 0`. -/
def smooth_pred (Al : Int) (num : Int) (q : Int) : Int :=
  if 0 ≤ num then
    let pred := (q * 2 ^ 7 + num).tdiv (q * 2 ^ 8)
    if 0 < Al ∧ 2 ^ Al.toNat ≤ pred then 2 ^ Al.toNat - 1 else pred
  else
    let pred := (q * 2 ^ 7 - num).tdiv (q * 2 ^ 8)
    if 0 < Al ∧ 2 ^ Al.toNat ≤ pred then -(2 ^ Al.toNat - 1) else -pred

/-- One conditional coefficient update of `decompress_smooth_data`:
the estimate is written into the workspace at `pos` only when the
latched coef_bits entry is nonzero and the workspace coefficient is
still exactly zero. -/
def smooth_apply (ws : Block) (pos : Fin 64) (Al : Int) (num : Int)
    (q : Int) : Block :=
  if Al ≠ 0 ∧ ws pos = 0 then Function.update ws pos (smooth_pred Al num q)
  else ws

/-- The five AC estimates of `decompress_smooth_data` applied to one
workspace block, in source order (AC01, AC10, AC20, AC11, AC02).
`cb` is the component's latched coef_bits row, `q00..q02` the
quantizer values fetched before the block loop, `dc1..dc9` the 3x3 DC
neighborhood. -/
def smooth_block (cb : Fin 6 → Int)
    (q00 q01 q10 q20 q11 q02 : Int)
    (dc1 dc2 dc3 dc4 dc5 dc6 dc7 dc8 dc9 : Int) (ws : Block) : Block :=
  let ws1 := smooth_apply ws Q01_POS (cb 1) (36 * q00 * (dc4 - dc6)) q01
  let ws2 := smooth_apply ws1 Q10_POS (cb 2) (36 * q00 * (dc2 - dc8)) q10
  let ws3 := smooth_apply ws2 Q20_POS (cb 3)
    (9 * q00 * (dc2 + dc8 - 2 * dc5)) q20
  let ws4 := smooth_apply ws3 Q11_POS (cb 4)
    (5 * q00 * (dc1 - dc3 - dc7 + dc9)) q11
  smooth_apply ws4 Q02_POS (cb 5) (9 * q00 * (dc4 + dc6 - 2 * dc5)) q02

theorem smooth_apply_ne (ws : Block) (pos i : Fin 64) (Al num q : Int)
    (h : smooth_apply ws pos Al num q i ≠ ws i) :
    i = pos ∧ ws pos = 0 ∧ Al ≠ 0 := by
  unfold smooth_apply at h
  by_cases hc : Al ≠ 0 ∧ ws pos = 0
  · rw [if_pos hc] at h
    by_cases hip : i = pos
    · exact ⟨hip, hc.2, hc.1⟩
    · exact absurd (Function.update_noteq hip _ ws) h
  · rw [if_neg hc] at h
    exact absurd rfl h

theorem smooth_apply_other (ws : Block) (pos i : Fin 64)
    (Al num q : Int) (h : i ≠ pos) :
    smooth_apply ws pos Al num q i = ws i := by
  unfold smooth_apply
  by_cases hc : Al ≠ 0 ∧ ws pos = 0
  · rw [if_pos hc]; exact Function.update_noteq h _ ws
  · rw [if_neg hc]

theorem smooth_apply_point (ws ws' : Block) (pos : Fin 64)
    (Al num q : Int) (h : ws pos = ws' pos) :
    smooth_apply ws pos Al num q pos = smooth_apply ws' pos Al num q pos := by
  unfold smooth_apply
  rw [h]
  by_cases hc : Al ≠ 0 ∧ ws' pos = 0
  · rw [if_pos hc, if_pos hc, Function.update_same, Function.update_same]
  · rw [if_neg hc, if_neg hc, h]

/-- Pointwise evaluation of `smooth_block`: each of the five updates
acts on a distinct coefficient position, whose prior value is the
original workspace value. -/
theorem smooth_block_eval (cb : Fin 6 → Int)
    (q00 q01 q10 q20 q11 q02 : Int)
    (dc1 dc2 dc3 dc4 dc5 dc6 dc7 dc8 dc9 : Int) (ws : Block)
    (i : Fin 64) :
    smooth_block cb q00 q01 q10 q20 q11 q02
        dc1 dc2 dc3 dc4 dc5 dc6 dc7 dc8 dc9 ws i =
      (if i = Q01_POS then
        smooth_apply ws Q01_POS (cb 1) (36 * q00 * (dc4 - dc6)) q01 i
      else if i = Q10_POS then
        smooth_apply ws Q10_POS (cb 2) (36 * q00 * (dc2 - dc8)) q10 i
      else if i = Q20_POS then
        smooth_apply ws Q20_POS (cb 3) (9 * q00 * (dc2 + dc8 - 2 * dc5)) q20 i
      else if i = Q11_POS then
        smooth_apply ws Q11_POS (cb 4) (5 * q00 * (dc1 - dc3 - dc7 + dc9)) q11 i
      else if i = Q02_POS then
        smooth_apply ws Q02_POS (cb 5) (9 * q00 * (dc4 + dc6 - 2 * dc5)) q02 i
      else ws i) := by
  simp only [smooth_block]
  by_cases h1 : i = Q01_POS
  · subst h1
    rw [if_pos rfl,
        smooth_apply_other _ _ _ _ _ _ (by decide),
        smooth_apply_other _ _ _ _ _ _ (by decide),
        smooth_apply_other _ _ _ _ _ _ (by decide),
        smooth_apply_other _ _ _ _ _ _ (by decide)]
  rw [if_neg h1]
  by_cases h2 : i = Q10_POS
  · subst h2
    rw [if_pos rfl,
        smooth_apply_other _ _ _ _ _ _ (by decide),
        smooth_apply_other _ _ _ _ _ _ (by decide),
        smooth_apply_other _ _ _ _ _ _ (by decide)]
    exact smooth_apply_point _ _ _ _ _ _
      (smooth_apply_other _ _ _ _ _ _ (by decide))
  rw [if_neg h2]
  by_cases h3 : i = Q20_POS
  · subst h3
    rw [if_pos rfl,
        smooth_apply_other _ _ _ _ _ _ (by decide),
        smooth_apply_other _ _ _ _ _ _ (by decide)]
    exact smooth_apply_point _ _ _ _ _ _
      (by rw [smooth_apply_other _ _ _ _ _ _ (by decide),
              smooth_apply_other _ _ _ _ _ _ (by decide)])
  rw [if_neg h3]
  by_cases h4 : i = Q11_POS
  · subst h4
    rw [if_pos rfl, smooth_apply_other _ _ _ _ _ _ (by decide)]
    exact smooth_apply_point _ _ _ _ _ _
      (by rw [smooth_apply_other _ _ _ _ _ _ (by decide),
              smooth_apply_other _ _ _ _ _ _ (by decide),
              smooth_apply_other _ _ _ _ _ _ (by decide)])
  rw [if_neg h4]
  by_cases h5 : i = Q02_POS
  · subst h5
    rw [if_pos rfl]
    exact smooth_apply_point _ _ _ _ _ _
      (by rw [smooth_apply_other _ _ _ _ _ _ (by decide),
              smooth_apply_other _ _ _ _ _ _ (by decide),
              smooth_apply_other _ _ _ _ _ _ (by decide),
              smooth_apply_other _ _ _ _ _ _ (by decide)])
  · rw [if_neg h5,
        smooth_apply_other _ _ _ _ _ _ h5,
        smooth_apply_other _ _ _ _ _ _ h4,
        smooth_apply_other _ _ _ _ _ _ h3,
        smooth_apply_other _ _ _ _ _ _ h2,
        smooth_apply_other _ _ _ _ _ _ h1]

/-- C5: a coefficient of the block fed to the inverse transform differs
from the stored coefficient only at one of the 5 smoothable AC
positions, and only when the stored coefficient is exactly zero and the
latched coef_bits entry for that position is nonzero.  A coefficient
that is already non-zero, or whose latched undetermined-bit count is
zero, is never modified. -/
theorem smooth_block_changes_only_zero (cb : Fin 6 → Int)
    (q00 q01 q10 q20 q11 q02 : Int)
    (dc1 dc2 dc3 dc4 dc5 dc6 dc7 dc8 dc9 : Int) (ws : Block)
    (i : Fin 64)
    (h : smooth_block cb q00 q01 q10 q20 q11 q02
          dc1 dc2 dc3 dc4 dc5 dc6 dc7 dc8 dc9 ws i ≠ ws i) :
    ws i = 0 ∧
      ((i = Q01_POS ∧ cb 1 ≠ 0) ∨ (i = Q10_POS ∧ cb 2 ≠ 0) ∨
       (i = Q20_POS ∧ cb 3 ≠ 0) ∨ (i = Q11_POS ∧ cb 4 ≠ 0) ∨
       (i = Q02_POS ∧ cb 5 ≠ 0)) := by
  rw [smooth_block_eval] at h
  by_cases h1 : i = Q01_POS
  · subst h1
    rw [if_pos rfl] at h
    have hne := smooth_apply_ne ws Q01_POS Q01_POS _ _ _ h
    exact ⟨hne.2.1, Or.inl ⟨rfl, hne.2.2⟩⟩
  rw [if_neg h1] at h
  by_cases h2 : i = Q10_POS
  · subst h2
    rw [if_pos rfl] at h
    have hne := smooth_apply_ne ws Q10_POS Q10_POS _ _ _ h
    exact ⟨hne.2.1, Or.inr (Or.inl ⟨rfl, hne.2.2⟩)⟩
  rw [if_neg h2] at h
  by_cases h3 : i = Q20_POS
  · subst h3
    rw [if_pos rfl] at h
    have hne := smooth_apply_ne ws Q20_POS Q20_POS _ _ _ h
    exact ⟨hne.2.1, Or.inr (Or.inr (Or.inl ⟨rfl, hne.2.2⟩))⟩
  rw [if_neg h3] at h
  by_cases h4 : i = Q11_POS
  · subst h4
    rw [if_pos rfl] at h
    have hne := smooth_apply_ne ws Q11_POS Q11_POS _ _ _ h
    exact ⟨hne.2.1, Or.inr (Or.inr (Or.inr (Or.inl ⟨rfl, hne.2.2⟩)))⟩
  rw [if_neg h4] at h
  by_cases h5 : i = Q02_POS
  · subst h5
    rw [if_pos rfl] at h
    have hne := smooth_apply_ne ws Q02_POS Q02_POS _ _ _ h
    exact ⟨hne.2.1, Or.inr (Or.inr (Or.inr (Or.inr ⟨rfl, hne.2.2⟩)))⟩
  · rw [if_neg h5] at h
    exact absurd rfl h

theorem smooth_block_changes_only_zero_witness :
    (fun _ : Fin 64 => (0 : Int)) Q01_POS = 0 ∧
      ((Q01_POS = Q01_POS ∧ (fun _ : Fin 6 => (-1 : Int)) 1 ≠ 0) ∨
       (Q01_POS = Q10_POS ∧ (fun _ : Fin 6 => (-1 : Int)) 2 ≠ 0) ∨
       (Q01_POS = Q20_POS ∧ (fun _ : Fin 6 => (-1 : Int)) 3 ≠ 0) ∨
       (Q01_POS = Q11_POS ∧ (fun _ : Fin 6 => (-1 : Int)) 4 ≠ 0) ∨
       (Q01_POS = Q02_POS ∧ (fun _ : Fin 6 => (-1 : Int)) 5 ≠ 0)) :=
  smooth_block_changes_only_zero (fun _ => (-1 : Int))
    1 1 1 1 1 1 0 0 0 100 0 0 0 0 0 (fun _ => 0) Q01_POS (by decide)

/-- The estimate formula in the specification's words: magnitude
`(Q<<7 + |num|) / (Q<<8)` by truncating integer division, clamped to at
most `2^Al - 1`, negated when `num` is negative. -/
def smoothingEstimateSpec (num q Al : Int) : Int :=
  let mag := min ((q * 2 ^ 7 + |num|).tdiv (q * 2 ^ 8)) (2 ^ Al.toNat - 1)
  if num < 0 then -mag else mag

theorem smooth_pred_spec (Al num q : Int) (hAl : 0 < Al) :
    smooth_pred Al num q = smoothingEstimateSpec num q Al := by
  unfold smooth_pred smoothingEstimateSpec
  by_cases hnum : 0 ≤ num
  · rw [if_pos hnum, abs_of_nonneg hnum, if_neg (not_lt.mpr hnum)]
    by_cases hc : (2:Int) ^ Al.toNat ≤ (q * 2 ^ 7 + num).tdiv (q * 2 ^ 8)
    · rw [if_pos ⟨hAl, hc⟩]
      exact (min_eq_right (by linarith)).symm
    · rw [if_neg (fun hand => hc hand.2)]
      exact (min_eq_left (by linarith [not_le.mp hc])).symm
  · rw [if_neg hnum, abs_of_neg (not_le.mp hnum), if_pos (not_le.mp hnum),
        ← sub_eq_add_neg]
    by_cases hc : (2:Int) ^ Al.toNat ≤ (q * 2 ^ 7 - num).tdiv (q * 2 ^ 8)
    · rw [if_pos ⟨hAl, hc⟩, min_eq_right (by linarith)]
    · rw [if_neg (fun hand => hc hand.2),
          min_eq_left (by linarith [not_le.mp hc])]

/-- C6: for every smoothed AC position whose latched bit count `Al` is
positive, the value `decompress_smooth_data` writes equals the exact
integer formula: `num` is the weighted DC difference with weights
36, 36, 9, 5, 9 (for AC01, AC10, AC20, AC11, AC02) times the DC
quantizer; the magnitude is `(Q<<7 + |num|) / (Q<<8)` by truncating
division with the target position's quantizer, clamped to at most
`2^Al - 1`, and negated when `num` is negative. -/
theorem smooth_block_estimate_formula (cb : Fin 6 → Int)
    (q00 q01 q10 q20 q11 q02 : Int)
    (dc1 dc2 dc3 dc4 dc5 dc6 dc7 dc8 dc9 : Int) (ws : Block) :
    (0 < cb 1 → ws Q01_POS = 0 →
      smooth_block cb q00 q01 q10 q20 q11 q02
          dc1 dc2 dc3 dc4 dc5 dc6 dc7 dc8 dc9 ws Q01_POS =
        smoothingEstimateSpec (36 * q00 * (dc4 - dc6)) q01 (cb 1)) ∧
    (0 < cb 2 → ws Q10_POS = 0 →
      smooth_block cb q00 q01 q10 q20 q11 q02
          dc1 dc2 dc3 dc4 dc5 dc6 dc7 dc8 dc9 ws Q10_POS =
        smoothingEstimateSpec (36 * q00 * (dc2 - dc8)) q10 (cb 2)) ∧
    (0 < cb 3 → ws Q20_POS = 0 →
      smooth_block cb q00 q01 q10 q20 q11 q02
          dc1 dc2 dc3 dc4 dc5 dc6 dc7 dc8 dc9 ws Q20_POS =
        smoothingEstimateSpec (9 * q00 * (dc2 + dc8 - 2 * dc5)) q20 (cb 3)) ∧
    (0 < cb 4 → ws Q11_POS = 0 →
      smooth_block cb q00 q01 q10 q20 q11 q02
          dc1 dc2 dc3 dc4 dc5 dc6 dc7 dc8 dc9 ws Q11_POS =
        smoothingEstimateSpec (5 * q00 * (dc1 - dc3 - dc7 + dc9)) q11
          (cb 4)) ∧
    (0 < cb 5 → ws Q02_POS = 0 →
      smooth_block cb q00 q01 q10 q20 q11 q02
          dc1 dc2 dc3 dc4 dc5 dc6 dc7 dc8 dc9 ws Q02_POS =
        smoothingEstimateSpec (9 * q00 * (dc4 + dc6 - 2 * dc5)) q02
          (cb 5)) := by
  refine ⟨fun hAl hws => ?_, fun hAl hws => ?_, fun hAl hws => ?_,
          fun hAl hws => ?_, fun hAl hws => ?_⟩
  · rw [smooth_block_eval, if_pos rfl]
    unfold smooth_apply
    rw [if_pos ⟨ne_of_gt hAl, hws⟩, Function.update_same,
        smooth_pred_spec _ _ _ hAl]
  · rw [smooth_block_eval, if_neg (by decide), if_pos rfl]
    unfold smooth_apply
    rw [if_pos ⟨ne_of_gt hAl, hws⟩, Function.update_same,
        smooth_pred_spec _ _ _ hAl]
  · rw [smooth_block_eval, if_neg (by decide), if_neg (by decide),
        if_pos rfl]
    unfold smooth_apply
    rw [if_pos ⟨ne_of_gt hAl, hws⟩, Function.update_same,
        smooth_pred_spec _ _ _ hAl]
  · rw [smooth_block_eval, if_neg (by decide), if_neg (by decide),
        if_neg (by decide), if_pos rfl]
    unfold smooth_apply
    rw [if_pos ⟨ne_of_gt hAl, hws⟩, Function.update_same,
        smooth_pred_spec _ _ _ hAl]
  · rw [smooth_block_eval, if_neg (by decide), if_neg (by decide),
        if_neg (by decide), if_neg (by decide), if_pos rfl]
    unfold smooth_apply
    rw [if_pos ⟨ne_of_gt hAl, hws⟩, Function.update_same,
        smooth_pred_spec _ _ _ hAl]

theorem smooth_block_estimate_formula_witness :
    smooth_block (fun _ => (1 : Int)) 1 1 1 1 1 1
        0 0 0 100 0 0 0 0 0 (fun _ => 0) Q01_POS =
      smoothingEstimateSpec (36 * 1 * (100 - 0)) 1 ((fun _ => (1 : Int)) 1) :=
  (smooth_block_estimate_formula (fun _ => (1 : Int)) 1 1 1 1 1 1
      0 0 0 100 0 0 0 0 0 (fun _ => 0)).1 (by decide) rfl

/-! ### The single-pass decode path (`decompress_onepass`)

The entropy decoder is an external collaborator; it is modelled by
`blocks : Nat → Nat → Block` (the blocks the k-th successful
`decode_mcu` call fills into the MCU buffer, indexed by the block's
position `blkn` within the MCU) and a suspension schedule
`sched : List Bool`: each `decode_mcu` call consumes the head of the
schedule and suspends when it is `true` (an empty schedule never
suspends, so `[]` is the run with no suspensions injected).  The
inverse transform is a pure external function, so a call's effect on
the output image is captured as the list of IDCT write events it
issues. -/

/-- One inverse-DCT write: component index, the output row-group the
caller's buffer corresponds to, sample row/column offsets inside that
buffer, and the coefficient block handed to the inverse transform. -/
structure WriteEv where
  ci : Nat
  orow : Nat
  srow : Nat
  scol : Nat
  blk : Block

/-- The IDCT dispatch loop of `decompress_onepass` for one decoded MCU:
walks the scan's components tracking the block index `blkn`, skips
components whose output is not needed (advancing `blkn` by
`MCU_blocks`), clips the rightmost MCU column to `last_col_width` and
dummy rows below the image to `last_row_height`, and emits one write
per remaining block. -/
def onepassCompEvents (last_MCU_col last_iMCU_row irow orow yoffset
    col : Nat) (blks : Nat → Block) :
    List CompInfo → Nat → List WriteEv
  | [], _blkn => []
  | c :: rest, blkn =>
    if c.component_needed = false then
      onepassCompEvents last_MCU_col last_iMCU_row irow orow yoffset col
        blks rest (blkn + c.MCU_blocks)
    else
      let useful_width :=
        if col < last_MCU_col then c.MCU_width else c.last_col_width
      let start_col := col * c.MCU_sample_width
      ((List.range c.MCU_height).map (fun yindex =>
        if irow < last_iMCU_row ∨ yoffset + yindex < last_row_height c then
          (List.range useful_width).map (fun xindex =>
            { ci := c.component_index, orow := orow,
              srow := (yoffset + yindex) * c.DCT_scaled_size,
              scol := start_col + xindex * c.DCT_scaled_size,
              blk := blks (blkn + yindex * c.MCU_width + xindex) })
        else [])).flatten ++
      onepassCompEvents last_MCU_col last_iMCU_row irow orow yoffset col
        blks rest (blkn + c.MCU_height * c.MCU_width)

/-- The write events of one MCU at row-group `irow`, MCU row `yoffset`,
MCU column `col`. -/
def onepassMCUEvents (g : Geom) (irow orow yoffset col : Nat)
    (blks : Nat → Block) : List WriteEv :=
  onepassCompEvents (g.MCUs_per_row - 1) (g.total_iMCU_rows - 1) irow orow
    yoffset col blks g.cur_comp 0

/-- Result of the MCU-column loop of `decompress_onepass`: either a
suspension (saved column, entropy progress, remaining schedule, events
written so far) or normal completion of the MCU row. -/
inductive OPColRes where
  | susp (col k : Nat) (sched : List Bool) (evs : List WriteEv)
  | done (k : Nat) (sched : List Bool) (evs : List WriteEv)

/-- Result of the MCU-row loop of `decompress_onepass`. -/
inductive OPRowRes where
  | susp (yoffset col k : Nat) (sched : List Bool) (evs : List WriteEv)
  | done (k : Nat) (sched : List Bool) (evs : List WriteEv)

/-- The MCU-column loop of `decompress_onepass`: for each remaining
column of the current MCU row, consult the entropy decoder (one
schedule token per `decode_mcu` call); on suspension save the current
column, otherwise emit the MCU's IDCT writes and continue.  `fuel` is
the number of columns left (`MCUs_per_row - col` at every call site),
`k` the entropy success counter. -/
def onepassCols (g : Geom) (blocks : Nat → Nat → Block)
    (irow orow yoffset : Nat) :
    Nat → Nat → Nat → List Bool → OPColRes
  | 0, _col, k, sched => .done k sched []
  | fuel + 1, col, k, sched =>
    if sched.headI then .susp col k sched.tail []
    else
      let evs := onepassMCUEvents g irow orow yoffset col (blocks k)
      match onepassCols g blocks irow orow yoffset fuel (col + 1) (k + 1)
          sched.tail with
      | .susp c k2 s2 evs2 => .susp c k2 s2 (evs ++ evs2)
      | .done k2 s2 evs2 => .done k2 s2 (evs ++ evs2)

/-- The MCU-row loop of `decompress_onepass`: iterate MCU rows from
`yoffset`; the first row resumes at the saved column, later rows start
at column 0.  `fuel` is the number of MCU rows left
(`MCU_rows_per_iMCU_row - yoffset` at every call site). -/
def onepassRows (g : Geom) (blocks : Nat → Nat → Block) (irow orow : Nat) :
    Nat → Nat → Nat → Nat → List Bool → OPRowRes
  | 0, _yoffset, _col, k, sched => .done k sched []
  | fuel + 1, yoffset, col, k, sched =>
    match onepassCols g blocks irow orow yoffset (g.MCUs_per_row - col) col
        k sched with
    | .susp c k1 s1 evs => .susp yoffset c k1 s1 evs
    | .done k1 s1 evs =>
      match onepassRows g blocks irow orow fuel (yoffset + 1) 0 k1 s1 with
      | .susp yo c k2 s2 evs2 => .susp yo c k2 s2 (evs ++ evs2)
      | .done k2 s2 evs2 => .done k2 s2 (evs ++ evs2)

/-- decompress_onepass: process up to one whole iMCU row, resuming at
the saved MCU row offset and column.  On suspension the loop position
is saved into `MCU_vert_offset`/`MCU_ctr`.  On completing the iMCU row
both row-group cursors advance; if more row-groups remain the row
sequencer is reinitialized (`start_iMCU_row`) and the call reports
JPEG_ROW_COMPLETED, otherwise scan completion is signalled upstream
(`finish_input_pass`, modelled by the `input_pass_finished` flag) and
the call reports JPEG_SCAN_COMPLETED.  (The source's per-MCU-row reset
of `MCU_ctr` inside the loop is performed once at loop exit here; the
intermediate values are overwritten at the next suspension or
completion and are never read in between.) -/
def decompress_onepass (g : Geom) (blocks : Nat → Nat → Block)
    (st : DecState) (sched : List Bool) :
    DecState × List Bool × Status × List WriteEv :=
  match onepassRows g blocks st.input_iMCU_row st.output_iMCU_row
      (st.MCU_rows_per_iMCU_row - st.MCU_vert_offset) st.MCU_vert_offset
      st.MCU_ctr st.entropy_k sched with
  | .susp yo c k1 s1 evs =>
    ({ st with MCU_vert_offset := yo, MCU_ctr := c, entropy_k := k1 },
     s1, .suspended, evs)
  | .done k1 s1 evs =>
    let st2 := { st with
                 MCU_ctr := 0
                 entropy_k := k1
                 output_iMCU_row := st.output_iMCU_row + 1
                 input_iMCU_row := st.input_iMCU_row + 1 }
    if st2.input_iMCU_row < g.total_iMCU_rows then
      (start_iMCU_row g st2, s1, .rowCompleted, evs)
    else
      ({ st2 with input_pass_finished := true }, s1, .scanCompleted, evs)

/-- The caller's retry loop around `decompress_onepass`: keep calling
(with more input on suspension) until the scan completes; `fuel` bounds
the number of calls.  Returns the final state, the remaining schedule
and the concatenated write events. -/
def runOnepass (g : Geom) (blocks : Nat → Nat → Block) :
    Nat → DecState → List Bool →
    Option (DecState × List Bool × List WriteEv)
  | 0, _st, _sched => none
  | fuel + 1, st, sched =>
    match decompress_onepass g blocks st sched with
    | (st', s', .scanCompleted, evs) => some (st', s', evs)
    | (st', s', _, evs) =>
      match runOnepass g blocks fuel st' s' with
      | none => none
      | some (stf, sf, evs2) => some (stf, sf, evs ++ evs2)

/-- Every controller-state field except the two within-row resume
cursors (whose values after scan completion are dead state that the
next `start_iMCU_row` overwrites). -/
structure CoreState where
  input_iMCU_row : Nat
  output_iMCU_row : Nat
  input_scan_number : Nat
  output_scan_number : Nat
  MCU_ctr : Nat
  MCU_rows_per_iMCU_row : Nat
  eoi_reached : Bool
  input_pass_finished : Bool
  entropy_k : Nat
  store : Nat → Nat → Nat → Block

def DecState.core (st : DecState) : CoreState :=
  { input_iMCU_row := st.input_iMCU_row,
    output_iMCU_row := st.output_iMCU_row,
    input_scan_number := st.input_scan_number,
    output_scan_number := st.output_scan_number,
    MCU_ctr := st.MCU_ctr,
    MCU_rows_per_iMCU_row := st.MCU_rows_per_iMCU_row,
    eoi_reached := st.eoi_reached,
    input_pass_finished := st.input_pass_finished,
    entropy_k := st.entropy_k,
    store := st.store }

/-! Resumability of the column loop: a run with an empty schedule never
suspends; a run that completed did not depend on its schedule's unused
tail; and a suspended run followed by an empty-schedule run from the
saved position produces the events of one uninterrupted run. -/

theorem onepassCols_nil (g : Geom) (blocks : Nat → Nat → Block)
    (irow orow yoffset : Nat) :
    ∀ fuel col k, ∃ k2 evs,
      onepassCols g blocks irow orow yoffset fuel col k [] =
        .done k2 [] evs := by
  intro fuel
  induction fuel with
  | zero => intro col k; exact ⟨k, [], rfl⟩
  | succ n ih =>
    intro col k
    obtain ⟨k2, evs, hrec⟩ := ih (col + 1) (k + 1)
    refine ⟨k2, onepassMCUEvents g irow orow yoffset col (blocks k) ++ evs,
      ?_⟩
    show (match onepassCols g blocks irow orow yoffset n (col + 1) (k + 1)
        ([] : List Bool).tail with
      | .susp c k2 s2 evs2 =>
        OPColRes.susp c k2 s2
          (onepassMCUEvents g irow orow yoffset col (blocks k) ++ evs2)
      | .done k2 s2 evs2 =>
        OPColRes.done k2 s2
          (onepassMCUEvents g irow orow yoffset col (blocks k) ++ evs2)) = _
    rw [List.tail_nil, hrec]

theorem onepassCols_done (g : Geom) (blocks : Nat → Nat → Block)
    (irow orow yoffset : Nat) :
    ∀ fuel col k sched k1 s1 evs,
      onepassCols g blocks irow orow yoffset fuel col k sched =
        .done k1 s1 evs →
      onepassCols g blocks irow orow yoffset fuel col k [] =
        .done k1 [] evs := by
  intro fuel
  induction fuel with
  | zero =>
    intro col k sched k1 s1 evs h
    injection h with hk hs hevs
    subst hk; subst hevs; rfl
  | succ n ih =>
    intro col k sched k1 s1 evs h
    by_cases hh : sched.headI = true
    · rw [onepassCols, if_pos hh] at h
      exact OPColRes.noConfusion h
    · rw [onepassCols, if_neg hh] at h
      show (match onepassCols g blocks irow orow yoffset n (col + 1) (k + 1)
          ([] : List Bool).tail with
        | .susp c k2 s2 evs2 =>
          OPColRes.susp c k2 s2
            (onepassMCUEvents g irow orow yoffset col (blocks k) ++ evs2)
        | .done k2 s2 evs2 =>
          OPColRes.done k2 s2
            (onepassMCUEvents g irow orow yoffset col (blocks k) ++ evs2))
          = _
      rw [List.tail_nil]
      match hrec : onepassCols g blocks irow orow yoffset n (col + 1)
          (k + 1) sched.tail with
      | .susp c k2 s2 evs2 =>
        rw [hrec] at h
        exact OPColRes.noConfusion h
      | .done k2 s2 evs2 =>
        rw [hrec] at h
        injection h with hk hs hevs
        subst hk; subst hevs
        rw [ih _ _ _ _ _ _ hrec]

theorem onepassCols_split (g : Geom) (blocks : Nat → Nat → Block)
    (irow orow yoffset : Nat) :
    ∀ fuel col k sched c k1 s1 evs1,
      onepassCols g blocks irow orow yoffset fuel col k sched =
        .susp c k1 s1 evs1 →
      col ≤ c ∧ c - col < fuel ∧
      ∀ k2 evs2,
        onepassCols g blocks irow orow yoffset (fuel - (c - col)) c k1 [] =
          .done k2 [] evs2 →
        onepassCols g blocks irow orow yoffset fuel col k [] =
          .done k2 [] (evs1 ++ evs2) := by
  intro fuel
  induction fuel with
  | zero =>
    intro col k sched c k1 s1 evs1 h
    exact OPColRes.noConfusion h
  | succ n ih =>
    intro col k sched c k1 s1 evs1 h
    by_cases hh : sched.headI = true
    · rw [onepassCols, if_pos hh] at h
      injection h with hc hk hs hevs
      subst hc; subst hk; subst hevs
      refine ⟨Nat.le_refl _, by omega, fun k2 evs2 hdone => ?_⟩
      simpa using hdone
    · rw [onepassCols, if_neg hh] at h
      match hrec : onepassCols g blocks irow orow yoffset n (col + 1)
          (k + 1) sched.tail with
      | .done k2 s2 evs2 =>
        rw [hrec] at h
        exact OPColRes.noConfusion h
      | .susp c2 k2 s2 evs2 =>
        rw [hrec] at h
        injection h with hc hk hs hevs
        subst hc; subst hk; subst hevs
        obtain ⟨hle, hlt, hcont⟩ := ih _ _ _ _ _ _ _ hrec
        refine ⟨by omega, by omega, fun k3 evs3 hdone => ?_⟩
        have hfuel : n + 1 - (c2 - col) = n - (c2 - (col + 1)) := by omega
        rw [hfuel] at hdone
        have hstep := hcont k3 evs3 hdone
        show (match onepassCols g blocks irow orow yoffset n (col + 1)
            (k + 1) ([] : List Bool).tail with
          | .susp cx kx sx evsx =>
            OPColRes.susp cx kx sx
              (onepassMCUEvents g irow orow yoffset col (blocks k) ++ evsx)
          | .done kx sx evsx =>
            OPColRes.done kx sx
              (onepassMCUEvents g irow orow yoffset col (blocks k) ++ evsx))
            = _
        rw [List.tail_nil, hstep, List.append_assoc]

theorem onepassRows_nil (g : Geom) (blocks : Nat → Nat → Block)
    (irow orow : Nat) :
    ∀ fuel yoffset col k, ∃ k2 evs,
      onepassRows g blocks irow orow fuel yoffset col k [] =
        .done k2 [] evs := by
  intro fuel
  induction fuel with
  | zero => intro y col k; exact ⟨k, [], rfl⟩
  | succ n ih =>
    intro y col k
    obtain ⟨kA, evsA, hA⟩ := onepassCols_nil g blocks irow orow y
      (g.MCUs_per_row - col) col k
    obtain ⟨k2, evs2, hB⟩ := ih (y + 1) 0 kA
    refine ⟨k2, evsA ++ evs2, ?_⟩
    simp only [onepassRows, hA, hB]

theorem onepassRows_done (g : Geom) (blocks : Nat → Nat → Block)
    (irow orow : Nat) :
    ∀ fuel yoffset col k sched k1 s1 evs,
      onepassRows g blocks irow orow fuel yoffset col k sched =
        .done k1 s1 evs →
      onepassRows g blocks irow orow fuel yoffset col k [] =
        .done k1 [] evs := by
  intro fuel
  induction fuel with
  | zero =>
    intro y col k sched k1 s1 evs h
    injection h with hk hs hevs
    subst hk; subst hevs; rfl
  | succ n ih =>
    intro y col k sched k1 s1 evs h
    simp only [onepassRows] at h
    split at h
    next cA kA sA evsA hA => exact OPRowRes.noConfusion h
    next kA sA evsA hA =>
      split at h
      next yo c k2 s2 evs2 hB => exact OPRowRes.noConfusion h
      next k2 s2 evs2 hB =>
        injection h with hk hs hevs
        subst hk; subst hevs
        simp only [onepassRows, onepassCols_done g blocks irow orow _ _ _ _ _
          _ _ _ hA, ih _ _ _ _ _ _ _ hB]

theorem onepassRows_split (g : Geom) (blocks : Nat → Nat → Block)
    (irow orow : Nat) :
    ∀ fuel y0 c0 k sched yo c k1 s1 evs1,
      onepassRows g blocks irow orow fuel y0 c0 k sched =
        .susp yo c k1 s1 evs1 →
      y0 ≤ yo ∧ yo - y0 < fuel ∧
      ∀ k2 evs2,
        onepassRows g blocks irow orow (fuel - (yo - y0)) yo c k1 [] =
          .done k2 [] evs2 →
        onepassRows g blocks irow orow fuel y0 c0 k [] =
          .done k2 [] (evs1 ++ evs2) := by
  intro fuel
  induction fuel with
  | zero =>
    intro y0 c0 k sched yo c k1 s1 evs1 h
    exact OPRowRes.noConfusion h
  | succ n ih =>
    intro y0 c0 k sched yo c k1 s1 evs1 h
    simp only [onepassRows] at h
    split at h
    next cA kA sA evsA hA =>
      injection h with hy hc hk hs hevs
      subst hy; subst hc; subst hk; subst hs; subst hevs
      obtain ⟨hle, hlt, hcont⟩ :=
        onepassCols_split g blocks irow orow y0 _ _ _ _ _ _ _ _ hA
      refine ⟨Nat.le_refl _, by omega, fun k2 evs2 hdone => ?_⟩
      rw [Nat.sub_self, Nat.sub_zero] at hdone
      simp only [onepassRows] at hdone
      split at hdone
      next cx kx sx evsx hB =>
        obtain ⟨kx2, evsx2, hx⟩ := onepassCols_nil g blocks irow orow y0
          (g.MCUs_per_row - cA) cA kA
        rw [hx] at hB
        exact OPColRes.noConfusion hB
      next kB sB evsB hB =>
        have hsB : sB = [] := by
          obtain ⟨kx2, evsx2, hx⟩ := onepassCols_nil g blocks irow orow y0
            (g.MCUs_per_row - cA) cA kA
          rw [hx] at hB
          injection hB with h1 h2 h3
          exact h2.symm
        subst hsB
        split at hdone
        next yx cx kx sx evsx hC =>
          obtain ⟨kx2, evsx2, hx⟩ := onepassRows_nil g blocks irow orow n
            (y0 + 1) 0 kB
          rw [hx] at hC
          exact OPRowRes.noConfusion hC
        next kC sC evsC hC =>
          injection hdone with hk hs hevs
          subst hk; subst hevs; subst hs
          have hfuel : g.MCUs_per_row - c0 - (cA - c0) =
              g.MCUs_per_row - cA := by omega
          rw [hfuel] at hcont
          simp only [onepassRows, hcont kB evsB hB, hC,
            List.append_assoc]
    next kA sA evsA hA =>
      split at h
      next yB cB kB sB evsB hB =>
        injection h with hy hc hk hs hevs
        subst hy; subst hc; subst hk; subst hs; subst hevs
        obtain ⟨hle, hlt, hcont⟩ := ih _ _ _ _ _ _ _ _ _ hB
        refine ⟨by omega, by omega, fun k2 evs2 hdone => ?_⟩
        have hfuel : n + 1 - (yB - y0) = n - (yB - (y0 + 1)) := by omega
        rw [hfuel] at hdone
        have htail := hcont k2 evs2 hdone
        simp only [onepassRows, onepassCols_done g blocks irow orow _ _ _ _ _
          _ _ _ hA, htail, List.append_assoc]
      next kB sB evsB hB => exact OPRowRes.noConfusion h

theorem decompress_onepass_nil (g : Geom) (blocks : Nat → Nat → Block)
    (st : DecState) :
    ∃ st2 r evs,
      decompress_onepass g blocks st [] = (st2, [], r, evs) ∧
        r ≠ Status.suspended := by
  obtain ⟨k2, evs, h⟩ := onepassRows_nil g blocks st.input_iMCU_row
    st.output_iMCU_row (st.MCU_rows_per_iMCU_row - st.MCU_vert_offset)
    st.MCU_vert_offset st.MCU_ctr st.entropy_k
  by_cases hlt : st.input_iMCU_row + 1 < g.total_iMCU_rows
  · refine ⟨start_iMCU_row g { st with
        MCU_ctr := 0
        entropy_k := k2
        output_iMCU_row := st.output_iMCU_row + 1
        input_iMCU_row := st.input_iMCU_row + 1 },
      Status.rowCompleted, evs, ?_, by decide⟩
    simp only [decompress_onepass, h]
    rw [if_pos hlt]
  · refine ⟨{ st with
        MCU_ctr := 0
        entropy_k := k2
        output_iMCU_row := st.output_iMCU_row + 1
        input_iMCU_row := st.input_iMCU_row + 1
        input_pass_finished := true },
      Status.scanCompleted, evs, ?_, by decide⟩
    simp only [decompress_onepass, h]
    rw [if_neg hlt]

theorem decompress_onepass_done (g : Geom) (blocks : Nat → Nat → Block)
    (st : DecState) (sched : List Bool) (st2 : DecState) (s2 : List Bool)
    (r : Status) (evs : List WriteEv)
    (h : decompress_onepass g blocks st sched = (st2, s2, r, evs))
    (hr : r ≠ Status.suspended) :
    decompress_onepass g blocks st [] = (st2, [], r, evs) := by
  simp only [decompress_onepass] at h
  split at h
  next yo c k1 s1x evsx hA =>
    simp only [Prod.mk.injEq] at h
    exact absurd h.2.2.1.symm hr
  next k1 s1x evsx hA =>
    have hA0 := onepassRows_done g blocks st.input_iMCU_row
      st.output_iMCU_row _ _ _ _ _ _ _ _ hA
    split at h
    next hlt =>
      simp only [Prod.mk.injEq] at h
      obtain ⟨h1, h2x, h3, h4⟩ := h
      subst h1; subst h3; subst h4
      simp only [decompress_onepass, hA0]
      rw [if_pos hlt]
    next hlt =>
      simp only [Prod.mk.injEq] at h
      obtain ⟨h1, h2x, h3, h4⟩ := h
      subst h1; subst h3; subst h4
      simp only [decompress_onepass, hA0]
      rw [if_neg hlt]

theorem decompress_onepass_split (g : Geom) (blocks : Nat → Nat → Block)
    (st : DecState) (sched : List Bool) (st' : DecState) (s' : List Bool)
    (evs1 : List WriteEv)
    (h : decompress_onepass g blocks st sched =
      (st', s', Status.suspended, evs1)) :
    ∀ T r E, decompress_onepass g blocks st' [] = (T, [], r, E) →
      ∃ T2, decompress_onepass g blocks st [] = (T2, [], r, evs1 ++ E) ∧
        (r = Status.rowCompleted → T2 = T) ∧ T2.core = T.core := by
  simp only [decompress_onepass] at h
  split at h
  case h_2 k1 s1x evsx hA =>
    split at h
    · simp only [Prod.mk.injEq] at h
      exact absurd h.2.2.1 (by decide)
    · simp only [Prod.mk.injEq] at h
      exact absurd h.2.2.1 (by decide)
  case h_1 yo c k1 s1x evsx hA =>
    simp only [Prod.mk.injEq] at h
    obtain ⟨h1, h2x, _, h4⟩ := h
    subst h4
    obtain ⟨hle, hlt, hcont⟩ :=
      onepassRows_split g blocks st.input_iMCU_row st.output_iMCU_row
        _ _ _ _ _ _ _ _ _ _ hA
    intro T r E hT
    rw [← h1] at hT
    simp only [decompress_onepass] at hT
    split at hT
    next yx cx kx sx evsD hD =>
      obtain ⟨kx2, evsx2, hx⟩ := onepassRows_nil g blocks
        st.input_iMCU_row st.output_iMCU_row
        (st.MCU_rows_per_iMCU_row - yo) yo c k1
      rw [hx] at hD
      exact OPRowRes.noConfusion hD
    next kD sD evsD hD =>
      have hsD : sD = [] := by
        obtain ⟨kx2, evsx2, hx⟩ := onepassRows_nil g blocks
          st.input_iMCU_row st.output_iMCU_row
          (st.MCU_rows_per_iMCU_row - yo) yo c k1
        rw [hx] at hD
        injection hD with hh1 hh2 hh3
        exact hh2.symm
      subst hsD
      have hfe : st.MCU_rows_per_iMCU_row - st.MCU_vert_offset -
          (yo - st.MCU_vert_offset) = st.MCU_rows_per_iMCU_row - yo := by
        omega
      rw [hfe] at hcont
      have hrows := hcont kD evsD hD
      split at hT
      next hc =>
        simp only [Prod.mk.injEq] at hT
        obtain ⟨hT1, hT2x, hT3, hT4⟩ := hT
        subst hT3; subst hT4
        refine ⟨start_iMCU_row g { st with
            MCU_ctr := 0
            entropy_k := kD
            output_iMCU_row := st.output_iMCU_row + 1
            input_iMCU_row := st.input_iMCU_row + 1 },
          ?_, fun _ => ?_, ?_⟩
        · simp only [decompress_onepass, hrows]
          rw [if_pos hc]
        · rw [← hT1]
          rfl
        · rw [← hT1]
          rfl
      next hc =>
        simp only [Prod.mk.injEq] at hT
        obtain ⟨hT1, hT2x, hT3, hT4⟩ := hT
        subst hT3; subst hT4
        refine ⟨{ st with
            MCU_ctr := 0
            entropy_k := kD
            output_iMCU_row := st.output_iMCU_row + 1
            input_iMCU_row := st.input_iMCU_row + 1
            input_pass_finished := true },
          ?_, fun hco => Status.noConfusion hco, ?_⟩
        · simp only [decompress_onepass, hrows]
          rw [if_neg hc]
        · rw [← hT1]
          rfl

/-- C1: suspension is transparent for the single-pass path.  When
`decode_mcu` reports insufficient input, `decompress_onepass` saves the
MCU-row offset and MCU column (`MCU_vert_offset`, `MCU_ctr`) and
returns SUSPENDED (the `.susp` branch of the model), and the retry loop
resumes at exactly that saved position: any completed run, whatever the
injected suspension schedule, issues exactly the IDCT write events of
the completed run with no suspensions injected — in the same order,
each MCU decoded exactly once (the final entropy success counters
agree) — and reaches the same controller state (up to the dead
`MCU_vert_offset` cursor, which the next `start_iMCU_row` overwrites
and no reader consults). -/
theorem onepass_suspension_transparent (g : Geom)
    (blocks : Nat → Nat → Block) :
    ∀ fuel st sched stf s1 evs fuel2 stf2 s2 evs2,
      runOnepass g blocks fuel st sched = some (stf, s1, evs) →
      runOnepass g blocks fuel2 st [] = some (stf2, s2, evs2) →
      evs = evs2 ∧ stf.core = stf2.core := by
  intro fuel
  induction fuel with
  | zero =>
    intro st sched stf s1 evs fuel2 stf2 s2 evs2 h1 h2
    exact Option.noConfusion h1
  | succ n ih =>
    intro st sched stf s1 evs fuel2 stf2 s2 evs2 h1 h2
    rcases hE : decompress_onepass g blocks st sched with ⟨st1, sx, r, evsA⟩
    cases r with
    | rowCompleted =>
      simp only [runOnepass, hE] at h1
      split at h1
      next heqB => exact Option.noConfusion h1
      next stfA sfA evsB heqB =>
        simp only [Option.some.injEq, Prod.mk.injEq] at h1
        obtain ⟨he1, he2, he3⟩ := h1
        subst he1; subst he3
        have hE0 := decompress_onepass_done g blocks st sched _ _ _ _ hE
          (by decide)
        cases fuel2 with
        | zero => exact Option.noConfusion h2
        | succ m =>
          simp only [runOnepass, hE0] at h2
          split at h2
          next heqC => exact Option.noConfusion h2
          next stfB sfB evsC heqC =>
            simp only [Option.some.injEq, Prod.mk.injEq] at h2
            obtain ⟨hf1, hf2, hf3⟩ := h2
            subst hf1; subst hf3
            obtain ⟨hev, hcore⟩ := ih st1 sx stfA sfA evsB m stfB sfB evsC
              heqB heqC
            exact ⟨by rw [hev], hcore⟩
    | scanCompleted =>
      simp only [runOnepass, hE] at h1
      simp only [Option.some.injEq, Prod.mk.injEq] at h1
      obtain ⟨he1, he2, he3⟩ := h1
      subst he1; subst he3
      have hE0 := decompress_onepass_done g blocks st sched _ _ _ _ hE
        (by decide)
      cases fuel2 with
      | zero => exact Option.noConfusion h2
      | succ m =>
        simp only [runOnepass, hE0] at h2
        simp only [Option.some.injEq, Prod.mk.injEq] at h2
        obtain ⟨hf1, hf2, hf3⟩ := h2
        subst hf1; subst hf3
        exact ⟨rfl, rfl⟩
    | suspended =>
      simp only [runOnepass, hE] at h1
      split at h1
      next heqB => exact Option.noConfusion h1
      next stfA sfA evsB heqB =>
        simp only [Option.some.injEq, Prod.mk.injEq] at h1
        obtain ⟨he1, he2, he3⟩ := h1
        subst he1; subst he3
        obtain ⟨T, r2, E2, hF, hr2⟩ := decompress_onepass_nil g blocks st1
        obtain ⟨T2, hT2eq, hT2row, hT2core⟩ :=
          decompress_onepass_split g blocks st sched st1 sx evsA hE T r2 E2
            hF
        cases r2 with
        | suspended => exact absurd rfl hr2
        | rowCompleted =>
          cases fuel2 with
          | zero => exact Option.noConfusion h2
          | succ m =>
            simp only [runOnepass, hT2eq] at h2
            split at h2
            next heqC => exact Option.noConfusion h2
            next stfB sfB evsC heqC =>
              simp only [Option.some.injEq, Prod.mk.injEq] at h2
              obtain ⟨hf1, hf2, hf3⟩ := h2
              subst hf1; subst hf3
              have hTT := hT2row rfl
              rw [hTT] at heqC
              have hconstr : runOnepass g blocks (m + 1) st1 [] =
                  some (stfB, sfB, E2 ++ evsC) := by
                simp only [runOnepass, hF, heqC]
              obtain ⟨hev, hcore⟩ := ih st1 sx stfA sfA evsB (m + 1) stfB
                sfB (E2 ++ evsC) heqB hconstr
              constructor
              · rw [hev, ← List.append_assoc]
              · exact hcore
        | scanCompleted =>
          cases fuel2 with
          | zero => exact Option.noConfusion h2
          | succ m =>
            simp only [runOnepass, hT2eq] at h2
            simp only [Option.some.injEq, Prod.mk.injEq] at h2
            obtain ⟨hf1, hf2, hf3⟩ := h2
            subst hf1; subst hf3
            have hconstr : runOnepass g blocks 1 st1 [] =
                some (T, [], E2) := by
              simp only [runOnepass, hF]
            obtain ⟨hev, hcore⟩ := ih st1 sx stfA sfA evsB 1 T [] E2 heqB
              hconstr
            constructor
            · rw [hev]
            · rw [hcore, ← hT2core]

/-- Concrete single-component 1-MCU geometry for instantiating the
suspension-transparency theorem. -/
def c1Comp : CompInfo :=
  { component_index := 0, component_needed := true,
    v_samp_factor := 1, h_samp_factor := 1,
    height_in_blocks := 1, width_in_blocks := 1,
    MCU_width := 1, MCU_height := 1, MCU_blocks := 1,
    MCU_sample_width := 8, last_col_width := 1,
    DCT_scaled_size := 8, quant_table := none }

def c1Geom : Geom :=
  { comps_in_scan := 1, cur_comp := [c1Comp], comp_info := [c1Comp],
    MCUs_per_row := 1, total_iMCU_rows := 1, blocks_in_MCU := 1, Ss := 0 }

def c1Blocks : Nat → Nat → Block := fun k _ => (fun _ => (k : Int))

def c1Stf : DecState :=
  { input_iMCU_row := 1, output_iMCU_row := 1,
    input_scan_number := 1, output_scan_number := 1,
    MCU_ctr := 0, MCU_vert_offset := 0, MCU_rows_per_iMCU_row := 1,
    eoi_reached := false, input_pass_finished := true,
    entropy_k := 1, store := st0.store }

def c1Evs : List WriteEv :=
  [{ ci := 0, orow := 0, srow := 0, scol := 0, blk := fun _ => 0 }]

theorem onepass_suspension_transparent_witness :
    runOnepass c1Geom c1Blocks 3 st0 [true] = some (c1Stf, [], c1Evs) ∧
    runOnepass c1Geom c1Blocks 2 st0 [] = some (c1Stf, [], c1Evs) ∧
    (c1Evs = c1Evs ∧ c1Stf.core = c1Stf.core) :=
  ⟨rfl, rfl,
   onepass_suspension_transparent c1Geom c1Blocks 3 st0 [true] c1Stf []
     c1Evs 2 c1Stf [] c1Evs rfl rfl⟩

/-- C9: when `decompress_onepass` completes a row-group (does not
suspend), the input and output row-group cursors advance together; if
further row-groups remain it reinitializes the row sequencer
(`start_iMCU_row`) and returns ROW_COMPLETED with the upstream
scan-completion signal untouched; if it was the last row-group it
signals scan completion upstream (`finish_input_pass`, the
`input_pass_finished` flag) and returns SCAN_COMPLETED. -/
theorem decompress_onepass_completion (g : Geom)
    (blocks : Nat → Nat → Block) (st : DecState) (sched : List Bool)
    (h : (decompress_onepass g blocks st sched).2.2.1 ≠
      Status.suspended) :
    (decompress_onepass g blocks st sched).1.input_iMCU_row =
      st.input_iMCU_row + 1 ∧
    (decompress_onepass g blocks st sched).1.output_iMCU_row =
      st.output_iMCU_row + 1 ∧
    (st.input_iMCU_row + 1 < g.total_iMCU_rows →
      (decompress_onepass g blocks st sched).2.2.1 =
        Status.rowCompleted ∧
      (∃ k1, (decompress_onepass g blocks st sched).1 =
        start_iMCU_row g { st with
          MCU_ctr := 0
          entropy_k := k1
          output_iMCU_row := st.output_iMCU_row + 1
          input_iMCU_row := st.input_iMCU_row + 1 }) ∧
      (decompress_onepass g blocks st sched).1.input_pass_finished =
        st.input_pass_finished) ∧
    (¬ st.input_iMCU_row + 1 < g.total_iMCU_rows →
      (decompress_onepass g blocks st sched).2.2.1 =
        Status.scanCompleted ∧
      (decompress_onepass g blocks st sched).1.input_pass_finished =
        true) := by
  rcases hR : onepassRows g blocks st.input_iMCU_row st.output_iMCU_row
      (st.MCU_rows_per_iMCU_row - st.MCU_vert_offset) st.MCU_vert_offset
      st.MCU_ctr st.entropy_k sched with ⟨yo, c, k1, s1, evs⟩ |
      ⟨k1, s1, evs⟩
  · exact absurd (by simp only [decompress_onepass, hR]) h
  · by_cases hc : st.input_iMCU_row + 1 < g.total_iMCU_rows
    · refine ⟨?_, ?_, fun _ => ⟨?_, ⟨k1, ?_⟩, ?_⟩,
        fun hcc => absurd hc hcc⟩
      · simp only [decompress_onepass, hR]
        rw [if_pos hc]
        rfl
      · simp only [decompress_onepass, hR]
        rw [if_pos hc]
        rfl
      · simp only [decompress_onepass, hR]
        rw [if_pos hc]
      · simp only [decompress_onepass, hR]
        rw [if_pos hc]
      · simp only [decompress_onepass, hR]
        rw [if_pos hc]
        rfl
    · refine ⟨?_, ?_, fun hcc => absurd hcc hc, fun _ => ⟨?_, ?_⟩⟩
      · simp only [decompress_onepass, hR]
        rw [if_neg hc]
      · simp only [decompress_onepass, hR]
        rw [if_neg hc]
      · simp only [decompress_onepass, hR]
        rw [if_neg hc]
      · simp only [decompress_onepass, hR]
        rw [if_neg hc]

theorem decompress_onepass_completion_witness :
    (decompress_onepass c1Geom c1Blocks st0 []).2.2.1 =
      Status.scanCompleted ∧
    (decompress_onepass c1Geom c1Blocks st0 []).1.input_pass_finished =
      true :=
  (decompress_onepass_completion c1Geom c1Blocks st0 []
    (by decide)).2.2.2 (by decide)

/-! ### The multi-pass input consumer (`consume_data`) and output
producer (`decompress_data`)

`consume_data` writes the entropy-decoded blocks straight into the
full-image virtual arrays (the `store` field, addressed
component/block-row/block-column); it produces no pixels and never
touches the output cursor.  `decompress_data` first forces consumer
calls while the input side has not advanced strictly past the output
side, then reads one row-group per needed component from the store and
issues its IDCT writes. -/

/-- One block written into a virtual array. -/
def storeWriteBlock (store : Nat → Nat → Nat → Block)
    (ci row col : Nat) (b : Block) : Nat → Nat → Nat → Block :=
  fun ci2 row2 col2 =>
    if ci2 = ci ∧ row2 = row ∧ col2 = col then b else store ci2 row2 col2

def storeWrites : List (Nat × Nat × Nat × Block) →
    (Nat → Nat → Nat → Block) → Nat → Nat → Nat → Block
  | [], store => store
  | (ci, row, col, b) :: rest, store =>
    storeWrites rest (storeWriteBlock store ci row col b)

/-- The block-pointer list construction of `consume_data` for one MCU,
as the store positions the entropy decoder's blocks land in: for each
scan component (tracking `blkn`), MCU rows map to window rows
`yoffset + yindex` of the window based at
`input_iMCU_row * v_samp_factor`, MCU columns to block columns
`MCU_col_num * MCU_width + xindex`. -/
def consumeCompWrites (irow yoffset col : Nat) (blks : Nat → Block) :
    List CompInfo → Nat → List (Nat × Nat × Nat × Block)
  | [], _blkn => []
  | c :: rest, blkn =>
    ((List.range c.MCU_height).map (fun yindex =>
      (List.range c.MCU_width).map (fun xindex =>
        (c.component_index,
         irow * c.v_samp_factor + yoffset + yindex,
         col * c.MCU_width + xindex,
         blks (blkn + yindex * c.MCU_width + xindex))))).flatten ++
    consumeCompWrites irow yoffset col blks rest
      (blkn + c.MCU_height * c.MCU_width)

def consumeMCUWrites (g : Geom) (irow yoffset col : Nat)
    (blks : Nat → Block) : List (Nat × Nat × Nat × Block) :=
  consumeCompWrites irow yoffset col blks g.cur_comp 0

/-- Result of the `consume_data` loops: suspension (saved position,
entropy progress, remaining schedule, store) or completion. -/
inductive CColRes where
  | susp (col k : Nat) (sched : List Bool) (store : Nat → Nat → Nat → Block)
  | done (k : Nat) (sched : List Bool) (store : Nat → Nat → Nat → Block)

inductive CRowRes where
  | susp (yoffset col k : Nat) (sched : List Bool)
      (store : Nat → Nat → Nat → Block)
  | done (k : Nat) (sched : List Bool) (store : Nat → Nat → Nat → Block)

/-- The MCU-column loop of `consume_data`: build the pointer list for
the MCU, try to fetch it; on suspension save the position (the
spec-level entropy contract makes a suspended `decode_mcu` commit
nothing). -/
def consumeCols (g : Geom) (blocks : Nat → Nat → Block)
    (irow yoffset : Nat) :
    Nat → Nat → Nat → (Nat → Nat → Nat → Block) → List Bool → CColRes
  | 0, _col, k, store, sched => .done k sched store
  | fuel + 1, col, k, store, sched =>
    if sched.headI then .susp col k sched.tail store
    else
      consumeCols g blocks irow yoffset fuel (col + 1) (k + 1)
        (storeWrites (consumeMCUWrites g irow yoffset col (blocks k)) store)
        sched.tail

/-- The MCU-row loop of `consume_data`. -/
def consumeRows (g : Geom) (blocks : Nat → Nat → Block) (irow : Nat) :
    Nat → Nat → Nat → Nat → (Nat → Nat → Nat → Block) → List Bool →
    CRowRes
  | 0, _yoffset, _col, k, store, sched => .done k sched store
  | fuel + 1, yoffset, col, k, store, sched =>
    match consumeCols g blocks irow yoffset (g.MCUs_per_row - col) col k
        store sched with
    | .susp c k1 s1 store1 => .susp yoffset c k1 s1 store1
    | .done k1 s1 store1 =>
      consumeRows g blocks irow fuel (yoffset + 1) 0 k1 store1 s1

/-- consume_data: read up to one whole iMCU row of MCUs into the
virtual arrays; suspension saves the position exactly as the one-pass
path; completion advances the input cursor only (never the output
cursor) and mirrors the one-pass completion statuses, producing no
pixels. -/
def consume_data (g : Geom) (blocks : Nat → Nat → Block)
    (st : DecState) (sched : List Bool) :
    DecState × List Bool × Status :=
  match consumeRows g blocks st.input_iMCU_row
      (st.MCU_rows_per_iMCU_row - st.MCU_vert_offset) st.MCU_vert_offset
      st.MCU_ctr st.entropy_k st.store sched with
  | .susp yo c k1 s1 store1 =>
    ({ st with
       MCU_vert_offset := yo
       MCU_ctr := c
       entropy_k := k1
       store := store1 }, s1, .suspended)
  | .done k1 s1 store1 =>
    let st2 := { st with
                 MCU_ctr := 0
                 entropy_k := k1
                 store := store1
                 input_iMCU_row := st.input_iMCU_row + 1 }
    if st2.input_iMCU_row < g.total_iMCU_rows then
      (start_iMCU_row g st2, s1, .rowCompleted)
    else
      ({ st2 with input_pass_finished := true }, s1, .scanCompleted)

/-- Result of the input-forcing loop of `decompress_data`. -/
inductive ForceRes where
  | ready (st : DecState) (sched : List Bool)
  | blocked (st : DecState) (sched : List Bool)

/-- The forcing loop of `decompress_data`: while the consumer's
progress (scan number, row-group index) has not advanced strictly past
the producer's, force one consumer call via the installed
`consume_input` entry (`consumeFn`); a suspended consumer call blocks
the producer.  `fuel` bounds the iteration count (the source's while
loop; exhausted fuel is reported as blocked). -/
def force_input
    (consumeFn : DecState → List Bool → DecState × List Bool × Status) :
    Nat → DecState → List Bool → ForceRes
  | 0, st, sched => .blocked st sched
  | fuel + 1, st, sched =>
    if st.input_scan_number < st.output_scan_number ∨
       (st.input_scan_number = st.output_scan_number ∧
        st.input_iMCU_row ≤ st.output_iMCU_row) then
      match consumeFn st sched with
      | (st', s', .suspended) => .blocked st' s'
      | (st', s', _) => force_input consumeFn fuel st' s'
    else .ready st sched

/-- The per-component output loop of `decompress_data`: for each image
component (frame order, index `ci` addressing its virtual array) whose
output is needed, count the non-dummy block rows of this iMCU row
(v_samp_factor, clipped on the last row to
`height_in_blocks mod v_samp_factor`, or the full factor when that
remainder is 0 — recomputed from the output side), and inverse
transform every block of the row-group window. -/
def ddCompEvents (st : DecState) (last_iMCU_row : Nat) :
    List CompInfo → Nat → List WriteEv
  | [], _ci => []
  | c :: rest, ci =>
    (if c.component_needed = false then []
     else
      let block_rows :=
        if st.output_iMCU_row < last_iMCU_row then c.v_samp_factor
        else
          if c.height_in_blocks % c.v_samp_factor = 0 then c.v_samp_factor
          else c.height_in_blocks % c.v_samp_factor
      ((List.range block_rows).map (fun block_row =>
        (List.range c.width_in_blocks).map (fun block_num =>
          { ci := ci, orow := st.output_iMCU_row,
            srow := block_row * c.DCT_scaled_size,
            scol := block_num * c.DCT_scaled_size,
            blk := st.store ci
              (st.output_iMCU_row * c.v_samp_factor + block_row)
              block_num }))).flatten) ++
    ddCompEvents st last_iMCU_row rest (ci + 1)

/-- decompress_data: force input ahead of output, then emit one
row-group of IDCT writes from the virtual arrays and advance the output
cursor.  A blocked forcing loop returns SUSPENDED with no writes and
the output cursor untouched. -/
def decompress_data (g : Geom)
    (consumeFn : DecState → List Bool → DecState × List Bool × Status)
    (fuel : Nat) (st : DecState) (sched : List Bool) :
    DecState × List Bool × Status × List WriteEv :=
  match force_input consumeFn fuel st sched with
  | .blocked st1 s1 => (st1, s1, .suspended, [])
  | .ready st1 s1 =>
    let evs := ddCompEvents st1 (g.total_iMCU_rows - 1) g.comp_info 0
    let st2 := { st1 with output_iMCU_row := st1.output_iMCU_row + 1 }
    if st2.output_iMCU_row < g.total_iMCU_rows then
      (st2, s1, .rowCompleted, evs)
    else
      (st2, s1, .scanCompleted, evs)

/-- dummy_consume_data: the consume entry installed in single-pass
mode; always indicates nothing was done. -/
def dummy_consume_data (st : DecState) (sched : List Bool) :
    DecState × List Bool × Status :=
  (st, sched, .suspended)

/-- The public controller entries selected by
`jinit_d_coef_controller` (the consume side; `coef_arrays_present`
models the `coef_arrays` null/non-null flag). -/
structure DCoefController where
  consume_data : DecState → List Bool → DecState × List Bool × Status
  coef_arrays_present : Bool

/-- jinit_d_coef_controller: with a full buffer the virtual-array
consumer and producer are installed; otherwise the single-MCU buffer is
used, `consume_data` is the dummy entry and `coef_arrays` stays NULL. -/
def jinit_d_coef_controller (g : Geom) (blocks : Nat → Nat → Block)
    (need_full_buffer : Bool) : DCoefController :=
  if need_full_buffer then
    { consume_data := consume_data g blocks, coef_arrays_present := true }
  else
    { consume_data := dummy_consume_data, coef_arrays_present := false }

/-- C10: in single-pass mode the installed consume entry point is
`dummy_consume_data`, which returns SUSPENDED for every call and every
state, consuming no input tokens and leaving the controller state
unchanged. -/
theorem dummy_consume_data_always_suspends (g : Geom)
    (blocks : Nat → Nat → Block) :
    (jinit_d_coef_controller g blocks false).consume_data =
      dummy_consume_data ∧
    ∀ st sched, dummy_consume_data st sched =
      (st, sched, Status.suspended) :=
  ⟨rfl, fun _ _ => rfl⟩

theorem force_input_ready_ahead
    (consumeFn : DecState → List Bool → DecState × List Bool × Status) :
    ∀ fuel st sched st1 s1,
      force_input consumeFn fuel st sched = ForceRes.ready st1 s1 →
      (st1.output_scan_number < st1.input_scan_number ∨
       (st1.input_scan_number = st1.output_scan_number ∧
        st1.output_iMCU_row < st1.input_iMCU_row)) := by
  intro fuel
  induction fuel with
  | zero => intro st sched st1 s1 h; exact ForceRes.noConfusion h
  | succ n ih =>
    intro st sched st1 s1 h
    simp only [force_input] at h
    split at h
    next hc =>
      split at h
      next st' s' heq => exact ForceRes.noConfusion h
      next st' s' r heq hne => exact ih st' s' st1 s1 h
    next hc =>
      injection h with h1 h2
      subst h1
      omega

theorem force_input_blocked_out
    (consumeFn : DecState → List Bool → DecState × List Bool × Status)
    (hpres : ∀ s sched,
      ((consumeFn s sched).1).output_iMCU_row = s.output_iMCU_row) :
    ∀ fuel st sched st1 s1,
      force_input consumeFn fuel st sched = ForceRes.blocked st1 s1 →
      st1.output_iMCU_row = st.output_iMCU_row := by
  intro fuel
  induction fuel with
  | zero =>
    intro st sched st1 s1 h
    injection h with h1 h2
    rw [← h1]
  | succ n ih =>
    intro st sched st1 s1 h
    simp only [force_input] at h
    split at h
    next hc =>
      split at h
      next st' s' heq =>
        injection h with h1 h2
        rw [← h1]
        have := hpres st sched
        rw [heq] at this
        exact this
      next st' s' r heq hne =>
        have h1 := ih st' s' st1 s1 h
        have h2 := hpres st sched
        rw [hne] at h2
        rw [h1]
        exact h2
    next hc => exact ForceRes.noConfusion h

/-- C2: before `decompress_data` reads any row-group from the
coefficient store it forces consumer calls until the input progress is
strictly past the output progress (`input_scan_number >
output_scan_number`, or equal scan numbers with `input_iMCU_row >
output_iMCU_row`); and if a forced consumer call suspends (or the
forcing loop's fuel runs out), `decompress_data` returns SUSPENDED
having issued no IDCT write and with the output cursor unchanged.
`hpres` states that the installed consumer never touches the output
cursor, as `consume_data` does not. -/
theorem decompress_data_waits_for_input (g : Geom)
    (consumeFn : DecState → List Bool → DecState × List Bool × Status)
    (hpres : ∀ s sched,
      ((consumeFn s sched).1).output_iMCU_row = s.output_iMCU_row)
    (fuel : Nat) (st : DecState) (sched : List Bool) :
    (∀ st1 s1, force_input consumeFn fuel st sched =
        ForceRes.ready st1 s1 →
      (st1.output_scan_number < st1.input_scan_number ∨
       (st1.input_scan_number = st1.output_scan_number ∧
        st1.output_iMCU_row < st1.input_iMCU_row))) ∧
    (∀ st2 s2 evs, decompress_data g consumeFn fuel st sched =
        (st2, s2, Status.suspended, evs) →
      evs = [] ∧ st2.output_iMCU_row = st.output_iMCU_row) := by
  constructor
  · intro st1 s1 h
    exact force_input_ready_ahead consumeFn fuel st sched st1 s1 h
  · intro st2 s2 evs h
    simp only [decompress_data] at h
    split at h
    next st1 s1 hb =>
      simp only [Prod.mk.injEq] at h
      obtain ⟨h1, h2, h3, h4⟩ := h
      subst h1
      refine ⟨h4.symm,
        force_input_blocked_out consumeFn hpres fuel st sched _ _ hb⟩
    next st1 s1 hr =>
      split at h
      · simp only [Prod.mk.injEq] at h
        exact absurd h.2.2.1 (by decide)
      · simp only [Prod.mk.injEq] at h
        exact absurd h.2.2.1 (by decide)

/-- A consumer that always suspends without touching the state, for
instantiating the producer-waits theorem. -/
def c2Consume (st : DecState) (sched : List Bool) :
    DecState × List Bool × Status :=
  (st, sched, Status.suspended)

theorem decompress_data_waits_for_input_witness :
    ([] : List WriteEv) = [] ∧ st0.output_iMCU_row = st0.output_iMCU_row :=
  (decompress_data_waits_for_input c3Geom c2Consume (fun _ _ => rfl) 1
    st0 []).2 st0 [] [] rfl

/-! ### Equivalence of the one-pass and multi-pass pipelines on a
16x16 single-component baseline image (2x2 MCUs of one 8x8 block). -/

def c8Comp : CompInfo :=
  { component_index := 0, component_needed := true,
    v_samp_factor := 1, h_samp_factor := 1,
    height_in_blocks := 2, width_in_blocks := 2,
    MCU_width := 1, MCU_height := 1, MCU_blocks := 1,
    MCU_sample_width := 8, last_col_width := 1,
    DCT_scaled_size := 8, quant_table := none }

def c8Geom : Geom :=
  { comps_in_scan := 1, cur_comp := [c8Comp], comp_info := [c8Comp],
    MCUs_per_row := 2, total_iMCU_rows := 2, blocks_in_MCU := 1, Ss := 0 }

/-- The one-pass decode of the 16x16 image: two `decompress_onepass`
calls (one per row-group) with no suspension, concatenating their IDCT
writes. -/
def c8OnepassRun (blocks : Nat → Nat → Block) : List WriteEv :=
  match decompress_onepass c8Geom blocks st0 [] with
  | (st1, s1, _, evs1) =>
    match decompress_onepass c8Geom blocks st1 s1 with
    | (_, _, _, evs2) => evs1 ++ evs2

/-- The multi-pass decode of the same image with the same
entropy-decoded blocks: buffer both row-groups with `consume_data`,
then produce both row-groups with `decompress_data` (whose forcing
loop finds the input already complete). -/
def c8MultiRun (blocks : Nat → Nat → Block) : List WriteEv :=
  match consume_data c8Geom blocks st0 [] with
  | (st1, s1, _) =>
    match consume_data c8Geom blocks st1 s1 with
    | (st2, s2, _) =>
      match decompress_data c8Geom (consume_data c8Geom blocks) 4 st2 s2
          with
      | (st3, s3, _, evs1) =>
        match decompress_data c8Geom (consume_data c8Geom blocks) 4 st3 s3
            with
        | (_, _, _, evs2) => evs1 ++ evs2

/-- C8: for a single-scan, non-progressive, single-component 16x16
image (2x2 MCUs of one 8x8 block each) and any entropy-decoded
coefficient blocks, decoding via `decompress_onepass` with no
suspension issues exactly the same IDCT writes — the same coefficient
blocks to the same output positions in the same order — as buffering
all coefficients via `consume_data` into the virtual arrays and then
producing via `decompress_data`; hence the pixel output is identical
for any inverse-transform routine. -/
theorem onepass_equals_multipass_16x16 (blocks : Nat → Nat → Block) :
    c8OnepassRun blocks = c8MultiRun blocks := rfl

/-! ### The smoothing output producer (`decompress_smooth_data`) -/

/-- The softened forcing loop of `decompress_smooth_data`: while the
input scan has not advanced past the output scan and end of image has
not been reached, keep the consumer one row-group ahead when the
current input scan is a DC scan (`Ss = 0`), otherwise even; a suspended
consumer call blocks the producer.  `fuel` bounds the source's while
loop. -/
def force_smooth (g : Geom)
    (consumeFn : DecState → List Bool → DecState × List Bool × Status) :
    Nat → DecState → List Bool → ForceRes
  | 0, st, sched => .blocked st sched
  | fuel + 1, st, sched =>
    if st.input_scan_number ≤ st.output_scan_number ∧
       st.eoi_reached = false then
      if st.input_scan_number = st.output_scan_number ∧
         st.output_iMCU_row + (if g.Ss = 0 then 1 else 0) <
           st.input_iMCU_row then
        .ready st sched
      else
        match consumeFn st sched with
        | (st', s', .suspended) => .blocked st' s'
        | (st', s', _) => force_smooth g consumeFn fuel st' s'
    else .ready st sched

/-- The block-column loop of `decompress_smooth_data` for one block
row: slide the 3x3 DC register window (DC3/DC6/DC9 refreshed from the
next block column while one exists, edge-repeated at the last column),
copy the stored block into the private workspace, apply the five
estimates (`smooth_block`) to the workspace only, and hand the
workspace to the inverse transform.  `cnt` counts the remaining
columns (`width_in_blocks` at entry, `bn` starting at 0). -/
def smoothCols (c : CompInfo) (cb : Fin 6 → Int)
    (q00 q01 q10 q20 q11 q02 : Int) (ci orow srow : Nat)
    (prevRow curRow nextRow : Nat → Block) (lastCol : Nat) :
    Nat → Nat →
    Int → Int → Int → Int → Int → Int → Int → Int → Int → List WriteEv
  | _bn, 0, _, _, _, _, _, _, _, _, _ => []
  | bn, cnt + 1, dc1, dc2, dc3, dc4, dc5, dc6, dc7, dc8, dc9 =>
    let dc3n := if bn < lastCol then (prevRow (bn + 1)) 0 else dc3
    let dc6n := if bn < lastCol then (curRow (bn + 1)) 0 else dc6
    let dc9n := if bn < lastCol then (nextRow (bn + 1)) 0 else dc9
    let ws := smooth_block cb q00 q01 q10 q20 q11 q02
      dc1 dc2 dc3n dc4 dc5 dc6n dc7 dc8 dc9n (curRow bn)
    { ci := ci, orow := orow, srow := srow,
      scol := bn * c.DCT_scaled_size, blk := ws } ::
    smoothCols c cb q00 q01 q10 q20 q11 q02 ci orow srow
      prevRow curRow nextRow lastCol (bn + 1) cnt
      dc2 dc3n dc3n dc5 dc6n dc6n dc8 dc9n dc9n

/-- The per-component output of `decompress_smooth_data` for the
current row-group: count the non-dummy block rows (clipped on the last
row-group, recomputed from the output side), pick the previous/next
block rows with edge repetition at the first row of the image and the
last row of the last row-group, and run the column loop with the
component's latched coef_bits row and quantizer values.  The store is
only read; the workspace copies are never written back. -/
def smoothCompEvents (g : Geom) (st : DecState) (c : CompInfo)
    (cb : Fin 6 → Int) (ci : Nat) : List WriteEv :=
  if c.component_needed = false then []
  else
    let qt := c.quant_table.getD (fun _ => 0)
    let last_iMCU_row := g.total_iMCU_rows - 1
    let block_rows :=
      if st.output_iMCU_row < last_iMCU_row then c.v_samp_factor
      else
        if c.height_in_blocks % c.v_samp_factor = 0 then c.v_samp_factor
        else c.height_in_blocks % c.v_samp_factor
    let base := st.output_iMCU_row * c.v_samp_factor
    ((List.range block_rows).map (fun br =>
      let curRow : Nat → Block := fun col => st.store ci (base + br) col
      let prevRow : Nat → Block :=
        if st.output_iMCU_row = 0 ∧ br = 0 then curRow
        else fun col => st.store ci (base + br - 1) col
      let nextRow : Nat → Block :=
        if ¬ st.output_iMCU_row < last_iMCU_row ∧ br = block_rows - 1 then
          curRow
        else fun col => st.store ci (base + br + 1) col
      smoothCols c cb (qt 0) (qt Q01_POS) (qt Q10_POS) (qt Q20_POS)
        (qt Q11_POS) (qt Q02_POS) ci st.output_iMCU_row
        (br * c.DCT_scaled_size) prevRow curRow nextRow
        (c.width_in_blocks - 1) 0 c.width_in_blocks
        ((prevRow 0) 0) ((prevRow 0) 0) ((prevRow 0) 0)
        ((curRow 0) 0) ((curRow 0) 0) ((curRow 0) 0)
        ((nextRow 0) 0) ((nextRow 0) 0) ((nextRow 0) 0))).flatten

def smoothAllComps (g : Geom) (st : DecState)
    (latch : Nat → Fin 6 → Int) : List CompInfo → Nat → List WriteEv
  | [], _ci => []
  | c :: rest, ci =>
    smoothCompEvents g st c (latch ci) ci ++
    smoothAllComps g st latch rest (ci + 1)

/-- decompress_smooth_data: the smoothing variant of the output
producer.  `latch` is the per-component coef_bits row latched by
`smoothing_ok`.  The coefficient store is only read; every estimate is
applied to the private workspace copy fed to the inverse transform. -/
def decompress_smooth_data (g : Geom)
    (consumeFn : DecState → List Bool → DecState × List Bool × Status)
    (latch : Nat → Fin 6 → Int) (fuel : Nat) (st : DecState)
    (sched : List Bool) : DecState × List Bool × Status × List WriteEv :=
  match force_smooth g consumeFn fuel st sched with
  | .blocked st1 s1 => (st1, s1, .suspended, [])
  | .ready st1 s1 =>
    let evs := smoothAllComps g st1 latch g.comp_info 0
    let st2 := { st1 with output_iMCU_row := st1.output_iMCU_row + 1 }
    if st2.output_iMCU_row < g.total_iMCU_rows then
      (st2, s1, .rowCompleted, evs)
    else
      (st2, s1, .scanCompleted, evs)

/-- Repeated smoothing output calls (the caller's output loop). -/
def smoothIter (g : Geom)
    (consumeFn : DecState → List Bool → DecState × List Bool × Status)
    (latch : Nat → Fin 6 → Int) (fuel : Nat) :
    Nat → DecState → List Bool → DecState × List Bool
  | 0, st, sched => (st, sched)
  | n + 1, st, sched =>
    match decompress_smooth_data g consumeFn latch fuel st sched with
    | (st1, s1, _, _) => smoothIter g consumeFn latch fuel n st1 s1

theorem force_smooth_eoi (g : Geom)
    (consumeFn : DecState → List Bool → DecState × List Bool × Status)
    (fuel : Nat) (st : DecState) (sched : List Bool)
    (heoi : st.eoi_reached = true) :
    force_smooth g consumeFn fuel st sched = ForceRes.blocked st sched ∨
    force_smooth g consumeFn fuel st sched = ForceRes.ready st sched := by
  cases fuel with
  | zero => exact Or.inl rfl
  | succ n =>
    right
    simp only [force_smooth]
    rw [if_neg]
    intro hand
    rw [heoi] at hand
    exact Bool.noConfusion hand.2

/-- C7: `decompress_smooth_data` never mutates the coefficient store:
every block is copied into the private workspace, the estimates are
applied only to the workspace, and the workspace is fed to the inverse
transform; so after any number of smoothing output passes (with the
input side complete, so no consumer call is forced in between) every
stored coefficient block is unchanged. -/
theorem smooth_data_preserves_store (g : Geom)
    (consumeFn : DecState → List Bool → DecState × List Bool × Status)
    (latch : Nat → Fin 6 → Int) (fuel : Nat) :
    ∀ n st sched, st.eoi_reached = true →
      (smoothIter g consumeFn latch fuel n st sched).1.store =
        st.store := by
  intro n
  induction n with
  | zero => intro st sched heoi; rfl
  | succ m ih =>
    intro st sched heoi
    show (smoothIter g consumeFn latch fuel (m + 1) st sched).1.store =
      st.store
    have hstep := force_smooth_eoi g consumeFn fuel st sched heoi
    rcases hstep with hb | hr
    · simp only [smoothIter, decompress_smooth_data, hb]
      exact ih st sched heoi
    · simp only [smoothIter, decompress_smooth_data, hr]
      by_cases hc : st.output_iMCU_row + 1 < g.total_iMCU_rows
      · rw [if_pos hc]
        exact ih _ sched heoi
      · rw [if_neg hc]
        exact ih _ sched heoi

theorem smooth_data_preserves_store_witness :
    (smoothIter c8Geom c2Consume (fun _ _ => 0) 1 2
        { st0 with eoi_reached := true } []).1.store =
      ({ st0 with eoi_reached := true } : DecState).store :=
  smooth_data_preserves_store c8Geom c2Consume (fun _ _ => 0) 1 2
    { st0 with eoi_reached := true } [] rfl

end JDCoef
